import Mathlib

/-!
Verification of the corpus-count utility (src/main.rs) against its
natural-language specification.  Strings are modelled as lists of Unicode
scalar values (`List Char`); byte offsets are computed through `Char.utf8Size`
exactly as Rust's `char_indices` does.  Fallible steps of the iterator
(out-of-bounds indexing of the offset deque, underflow of the length counter)
are made explicit so that panic-freedom is a provable statement.
-/

namespace CorpusCount

/-- Comparison of two characters by Unicode scalar value (Rust `char::cmp`). -/
def charCmp (a b : Char) : Ordering := compare a.toNat b.toNat

/-- Lexicographic comparison of character sequences by scalar value
(Rust `str::cmp`; byte-wise UTF-8 order agrees with scalar-value order). -/
def charListCmp : List Char → List Char → Ordering
  | [], [] => .eq
  | [], _ :: _ => .lt
  | _ :: _, [] => .gt
  | a :: as, b :: bs =>
    match charCmp a b with
    | .eq => charListCmp as bs
    | o => o

/-- The comparator passed to `sort_unstable_by` in `counted_into_sorted`
(src/main.rs lines 126-129): count descending first, string ascending on
ties. -/
def entryCmp (a b : List Char × Nat) : Ordering :=
  match compare b.2 a.2 with
  | .eq => charListCmp a.1 b.1
  | o => o

/-- The comparator read as a boolean less-or-equal test. -/
def entryLe (a b : List Char × Nat) : Bool := entryCmp a b != Ordering.gt

/-- The comparator's less-or-equal test as a decidable relation. -/
def entryLeP (a b : List Char × Nat) : Prop := entryLe a b = true

instance : DecidableRel entryLeP :=
  fun a b => inferInstanceAs (Decidable (entryLe a b = true))

/-- Model of `counted_into_sorted` (src/main.rs lines 115-131): optionally drop
entries whose count is below `filter`, then sort with the comparator.  Rust's
`sort_unstable_by` is modelled by insertion sort; the comparator is a total
order that can only equate identical pairs, so every correct sort of the same
input produces the same list and the model is observationally exact. -/
def counted_into_sorted (items : List (List Char × Nat)) (filter : Option Nat) :
    List (List Char × Nat) :=
  let items :=
    match filter with
    | some min_freq => items.filter fun (e : List Char × Nat) => min_freq ≤ e.2
    | none => items
  items.insertionSort entryLeP

/-- Total UTF-8 byte length of a character sequence (Rust `str::len`). -/
def byteLen (s : List Char) : Nat := (s.map Char.utf8Size).sum

def charOffsetsAux : List Char → Nat → List Nat
  | [], _ => []
  | c :: cs, acc => acc :: charOffsetsAux cs (acc + c.utf8Size)

/-- Byte offsets of the character starts of `s`, in ascending order
(`string.char_indices().map(|(idx, _)| idx)`, src/main.rs lines 213-216). -/
def charOffsets (s : List Char) : List Nat := charOffsetsAux s 0

/-- Byte offset of the start of character number `j` of `s`; equals
`byteLen s` when `j ≥ s.length`. -/
def offAt (s : List Char) (j : Nat) : Nat := byteLen (s.take j)

/-- State of the `NGrams` iterator (src/main.rs lines 199-205).  The deque of
byte offsets is modelled as a list whose head is the deque's front. -/
structure NGrams where
  min_n : Nat
  max_n : Nat
  string : List Char
  char_offsets : List Nat
  ngram_len : Nat

/-- Model of `NGrams::new` (src/main.rs lines 211-227). -/
def NGrams.new (string : List Char) (min_n max_n : Nat) : NGrams :=
  let char_offsets := charOffsets string
  { min_n, max_n, string, char_offsets,
    ngram_len := min max_n char_offsets.length }

/-- Result of one call to `next`: an emitted byte range together with the
successor state, exhaustion of the iterator, or a run-time fault (panic). -/
inductive Step where
  | item (range : Nat × Nat) (st : NGrams)
  | done
  | fault

/-- The slice-and-emit tail of `NGrams::next` (src/main.rs lines 251-259),
with the checks Rust performs made explicit: indexing the offset deque out of
bounds is a panic, and decrementing `ngram_len` below zero is a `usize`
underflow — a panic under checked (debug) arithmetic; under wrapping (release)
arithmetic the corrupted `ngram_len` makes the following call index the deque
out of bounds, so the fault is merely deferred by one call. -/
def NGrams.emitStep (st : NGrams) : Step :=
  match st.char_offsets.head? with
  | none => .fault
  | some a =>
    match
      (if st.ngram_len = st.char_offsets.length then some (byteLen st.string)
       else st.char_offsets[st.ngram_len]?) with
    | none => .fault
    | some b =>
      if st.ngram_len = 0 then .fault
      else .item (a, b) { st with ngram_len := st.ngram_len - 1 }

/-- Model of `NGrams::next` (src/main.rs lines 234-260). -/
def NGrams.next (st : NGrams) : Step :=
  if st.ngram_len < st.min_n then
    let co := st.char_offsets.tail
    if co.length < st.min_n then .done
    else NGrams.emitStep { st with char_offsets := co, ngram_len := min st.max_n co.length }
  else NGrams.emitStep st

/-- Drive the iterator for at most `fuel` calls to `next`, collecting the
emitted byte ranges; `none` if some call faults. -/
def NGrams.run : Nat → NGrams → Option (List (Nat × Nat))
  | 0, _ => some []
  | fuel + 1, st =>
    match NGrams.next st with
    | .done => some []
    | .fault => none
    | .item r st' => (NGrams.run fuel st').map (r :: ·)

/-- Drop exactly `n` leading bytes from a character sequence; `none` when `n`
is not a character boundary. -/
def dropBytes : List Char → Nat → Option (List Char)
  | l, 0 => some l
  | [], _ + 1 => none
  | c :: cs, n + 1 =>
    if c.utf8Size ≤ n + 1 then dropBytes cs (n + 1 - c.utf8Size) else none

/-- Take the characters spanning exactly the first `n` bytes; `none` when `n`
is not a character boundary. -/
def takeBytes : List Char → Nat → Option (List Char)
  | _, 0 => some []
  | [], _ + 1 => none
  | c :: cs, n + 1 =>
    if c.utf8Size ≤ n + 1 then (takeBytes cs (n + 1 - c.utf8Size)).map (c :: ·) else none

/-- Re-decode the byte range from `a` (inclusive) to `b` (exclusive) of `s` as
a character sequence; succeeds exactly when both ends lie on character
boundaries (the string's end included) and `a ≤ b`. -/
def decodeRange (s : List Char) (a b : Nat) : Option (List Char) :=
  if a ≤ b then (dropBytes s a).bind fun t => takeBytes t (b - a) else none

/-- Number of items the specification predicts for the generator:
the sum over every start position of `max 0 (min max_n (len - i) - min_n + 1)`
(truncated subtraction realises the clipping at zero). -/
def specCount (s : List Char) (min_n max_n : Nat) : Nat :=
  ((List.range s.length).map fun i => min max_n (s.length - i) + 1 - min_n).sum

/-- The sequence of substrings the specification predicts: for each start
position `i` in ascending order, the substrings starting at `i` of length `L`
for `L` from `min max_n (len - i)` down to `min_n`, in descending order. -/
def specNGrams (s : List Char) (min_n max_n : Nat) : List (List Char) :=
  (List.range s.length).flatMap fun i =>
    (List.range (min max_n (s.length - i) + 1 - min_n)).map fun k =>
      (s.drop i).take (min max_n (s.length - i) - k)

/-- Byte ranges the iterator is expected to emit at start position `i`. -/
def posRanges (s : List Char) (min_n max_n i : Nat) : List (Nat × Nat) :=
  (List.range (min max_n (s.length - i) + 1 - min_n)).map fun k =>
    (offAt s i, offAt s (i + (min max_n (s.length - i) - k)))

/-- Byte ranges emitted for the `r` start positions beginning at `i`. -/
def rangesFrom (s : List Char) (min_n max_n : Nat) : Nat → Nat → List (Nat × Nat)
  | _, 0 => []
  | i, r + 1 => posRanges s min_n max_n i ++ rangesFrom s min_n max_n (i + 1) r

/-- All byte ranges the iterator is expected to emit. -/
def specRanges (s : List Char) (min_n max_n : Nat) : List (Nat × Nat) :=
  rangesFrom s min_n max_n 0 s.length

/-! Facts about character offsets and byte-range decoding. -/

theorem byteLen_nil : byteLen [] = 0 := rfl

theorem byteLen_cons (c : Char) (l : List Char) :
    byteLen (c :: l) = c.utf8Size + byteLen l := by
  simp [byteLen]

theorem byteLen_append (l₁ l₂ : List Char) :
    byteLen (l₁ ++ l₂) = byteLen l₁ + byteLen l₂ := by
  simp [byteLen]

theorem length_charOffsetsAux (s : List Char) :
    ∀ acc, (charOffsetsAux s acc).length = s.length := by
  induction s with
  | nil => intro acc; rfl
  | cons c cs ih => intro acc; simp [charOffsetsAux, ih]

theorem charOffsets_length (s : List Char) : (charOffsets s).length = s.length :=
  length_charOffsetsAux s 0

theorem offAt_zero (s : List Char) : offAt s 0 = 0 := rfl

theorem offAt_of_length_le (s : List Char) (j : Nat) (h : s.length ≤ j) :
    offAt s j = byteLen s := by
  simp [offAt, List.take_of_length_le h]

theorem offAt_add (s : List Char) (i k : Nat) :
    offAt s (i + k) = offAt s i + byteLen ((s.drop i).take k) := by
  simp [offAt, List.take_add, byteLen_append]

theorem charOffsetsAux_getElem? (s : List Char) :
    ∀ acc j, j < s.length → (charOffsetsAux s acc)[j]? = some (acc + offAt s j) := by
  induction s with
  | nil => intro acc j h; simp at h
  | cons c cs ih =>
    intro acc j h
    cases j with
    | zero => simp [charOffsetsAux, offAt, byteLen]
    | succ j =>
      have hj : j < cs.length := by simpa using h
      simp only [charOffsetsAux, List.getElem?_cons_succ, ih (acc + c.utf8Size) j hj]
      have hoff : offAt (c :: cs) (j + 1) = c.utf8Size + offAt cs j := by
        simp [offAt, byteLen_cons]
      rw [hoff, Nat.add_assoc]

theorem charOffsets_getElem? (s : List Char) (j : Nat) (h : j < s.length) :
    (charOffsets s)[j]? = some (offAt s j) := by
  simpa using charOffsetsAux_getElem? s 0 j h

theorem dropBytes_byteLen_take (s : List Char) :
    ∀ k, dropBytes s (byteLen (s.take k)) = some (s.drop k) := by
  induction s with
  | nil => intro k; simp [byteLen, dropBytes]
  | cons c cs ih =>
    intro k
    cases k with
    | zero => simp [byteLen, dropBytes]
    | succ k =>
      have hpos := c.utf8Size_pos
      obtain ⟨m, hm⟩ : ∃ m, c.utf8Size + byteLen (cs.take k) = m + 1 :=
        ⟨c.utf8Size + byteLen (cs.take k) - 1, by omega⟩
      have hle : c.utf8Size ≤ m + 1 := by omega
      have hsub : m + 1 - c.utf8Size = byteLen (cs.take k) := by omega
      simp only [List.take_succ_cons, byteLen_cons, hm, dropBytes, hle, if_true, hsub,
        ih k, List.drop_succ_cons]

theorem takeBytes_byteLen_take (s : List Char) :
    ∀ k, takeBytes s (byteLen (s.take k)) = some (s.take k) := by
  induction s with
  | nil => intro k; simp [byteLen, takeBytes]
  | cons c cs ih =>
    intro k
    cases k with
    | zero => simp [byteLen, takeBytes]
    | succ k =>
      have hpos := c.utf8Size_pos
      obtain ⟨m, hm⟩ : ∃ m, c.utf8Size + byteLen (cs.take k) = m + 1 :=
        ⟨c.utf8Size + byteLen (cs.take k) - 1, by omega⟩
      have hle : c.utf8Size ≤ m + 1 := by omega
      have hsub : m + 1 - c.utf8Size = byteLen (cs.take k) := by omega
      simp only [List.take_succ_cons, byteLen_cons, hm, takeBytes, hle, if_true, hsub,
        ih k, Option.map_some']

theorem decodeRange_offAt (s : List Char) (i L : Nat) :
    decodeRange s (offAt s i) (offAt s (i + L)) = some ((s.drop i).take L) := by
  have hadd := offAt_add s i L
  have hle : offAt s i ≤ offAt s (i + L) := by omega
  have hd : dropBytes s (offAt s i) = some (s.drop i) := dropBytes_byteLen_take s i
  have ht : takeBytes (s.drop i) (byteLen ((s.drop i).take L)) = some ((s.drop i).take L) :=
    takeBytes_byteLen_take (s.drop i) L
  have hsub : offAt s (i + L) - offAt s i = byteLen ((s.drop i).take L) := by omega
  simp [decodeRange, hle, hd, hsub, ht]

/-! Characterisation of the iterator's emission sequence. -/

/-- Byte ranges for the lengths `L` down to `min_n` at start position `i`. -/
def lensAt (s : List Char) (min_n i L : Nat) : List (Nat × Nat) :=
  (List.range (L + 1 - min_n)).map fun k => (offAt s i, offAt s (i + (L - k)))

/-- Everything still to be emitted from a state at start position `i` with
current candidate length `L`. -/
def itemsFrom (s : List Char) (min_n max_n i L : Nat) : List (Nat × Nat) :=
  lensAt s min_n i L ++ rangesFrom s min_n max_n (i + 1) (s.length - (i + 1))

theorem posRanges_eq_lensAt (s : List Char) (min_n max_n i : Nat) :
    posRanges s min_n max_n i = lensAt s min_n i (min max_n (s.length - i)) := rfl

theorem lensAt_empty (s : List Char) (min_n i L : Nat) (h : L < min_n) :
    lensAt s min_n i L = [] := by
  have : L + 1 - min_n = 0 := by omega
  simp [lensAt, this]

theorem lensAt_cons (s : List Char) (min_n i L : Nat) (h1 : 1 ≤ min_n) (h : min_n ≤ L) :
    lensAt s min_n i L = (offAt s i, offAt s (i + L)) :: lensAt s min_n i (L - 1) := by
  have hL : L + 1 - min_n = (L - min_n) + 1 := by omega
  have hL' : L - 1 + 1 - min_n = L - min_n := by omega
  simp only [lensAt, hL, hL', List.range_succ_eq_map, List.map_cons, Nat.sub_zero,
    List.map_map]
  refine congrArg (_ :: ·) (List.map_congr_left fun k _ => ?_)
  have : L - (k + 1) = L - 1 - k := by omega
  simp [Function.comp, Nat.succ_eq_add_one, this]

theorem rangesFrom_empty (s : List Char) (min_n max_n : Nat) :
    ∀ r j, s.length - j < min_n → rangesFrom s min_n max_n j r = [] := by
  intro r
  induction r with
  | zero => intro j _; rfl
  | succ r ih =>
    intro j hj
    have h₁ : min max_n (s.length - j) < min_n := by omega
    have h₂ : s.length - (j + 1) < min_n := by omega
    simp [rangesFrom, posRanges_eq_lensAt, lensAt_empty _ _ _ _ h₁, ih (j + 1) h₂]

theorem emitStep_eval (s : List Char) (min_n max_n i L : Nat)
    (h1 : 1 ≤ L) (hiL : L ≤ s.length - i) :
    NGrams.emitStep ⟨min_n, max_n, s, (charOffsets s).drop i, L⟩ =
      .item (offAt s i, offAt s (i + L)) ⟨min_n, max_n, s, (charOffsets s).drop i, L - 1⟩ := by
  have hi : i < s.length := by omega
  have hhead : ((charOffsets s).drop i).head? = some (offAt s i) := by
    rw [List.head?_eq_getElem?, List.getElem?_drop, Nat.add_zero]
    exact charOffsets_getElem? s i hi
  have hlen : ((charOffsets s).drop i).length = s.length - i := by
    simp [charOffsets_length]
  have hnz : ¬ L = 0 := by omega
  by_cases hL : L = s.length - i
  · have hb : offAt s (i + L) = byteLen s := by
      rw [show i + L = s.length by omega]
      exact offAt_of_length_le s s.length (Nat.le_refl _)
    simp only [NGrams.emitStep, hhead, hlen, if_pos hL, hnz, if_false, hb]
  · have hlt : L < s.length - i := by omega
    have hidx : ((charOffsets s).drop i)[L]? = some (offAt s (i + L)) := by
      rw [List.getElem?_drop]
      exact charOffsets_getElem? s (i + L) (by omega)
    simp only [NGrams.emitStep, hhead, hlen, if_neg hL, hidx, hnz, if_false]

theorem run_spec (s : List Char) (min_n max_n : Nat) (h1 : 1 ≤ min_n) (h2 : min_n ≤ max_n) :
    ∀ fuel i L, i ≤ s.length → L ≤ min max_n (s.length - i) →
      (itemsFrom s min_n max_n i L).length < fuel →
      NGrams.run fuel ⟨min_n, max_n, s, (charOffsets s).drop i, L⟩ =
        some (itemsFrom s min_n max_n i L) := by
  intro fuel
  induction fuel with
  | zero => intro i L _ _ hf; omega
  | succ fuel ih =>
    intro i L hi hL hf
    by_cases hcase : L < min_n
    · -- move to the next suffix
      have htail : ((charOffsets s).drop i).tail = (charOffsets s).drop (i + 1) := by
        rw [List.tail_drop]
      have hlen : ((charOffsets s).drop (i + 1)).length = s.length - (i + 1) := by
        simp [charOffsets_length]
      have hempty : lensAt s min_n i L = [] := lensAt_empty s min_n i L hcase
      by_cases hdone : s.length - (i + 1) < min_n
      · have : NGrams.run (fuel + 1) ⟨min_n, max_n, s, (charOffsets s).drop i, L⟩ = some [] := by
          simp [NGrams.run, NGrams.next, hcase, htail, hlen, hdone]
        rw [this, itemsFrom, hempty,
          rangesFrom_empty s min_n max_n (s.length - (i + 1)) (i + 1) hdone]
        rfl
      · have hrem : min_n ≤ s.length - (i + 1) := by omega
        have hi1 : i + 1 < s.length := by omega
        set L' := min max_n (s.length - (i + 1)) with hL'
        have hL'min : min_n ≤ L' := by omega
        have hL'le : L' ≤ s.length - (i + 1) := by omega
        have hemit := emitStep_eval s min_n max_n (i + 1) L' (by omega) hL'le
        have hstep : NGrams.next ⟨min_n, max_n, s, (charOffsets s).drop i, L⟩ =
            .item (offAt s (i + 1), offAt s (i + 1 + L'))
              ⟨min_n, max_n, s, (charOffsets s).drop (i + 1), L' - 1⟩ := by
          simp only [NGrams.next, hcase, if_true, htail, hlen]
          rw [if_neg (by omega)]
          exact hemit
        have hitems : itemsFrom s min_n max_n i L =
            (offAt s (i + 1), offAt s (i + 1 + L')) :: itemsFrom s min_n max_n (i + 1) (L' - 1) := by
          rw [itemsFrom, hempty, List.nil_append]
          have hr : s.length - (i + 1) = (s.length - (i + 2)) + 1 := by omega
          rw [hr, rangesFrom, posRanges_eq_lensAt, ← hL',
            lensAt_cons s min_n (i + 1) L' h1 hL'min, itemsFrom]
          simp
        have hfuel : (itemsFrom s min_n max_n (i + 1) (L' - 1)).length < fuel := by
          rw [hitems] at hf
          simpa using Nat.lt_of_succ_lt_succ hf
        rw [hitems]
        simp only [NGrams.run, hstep,
          ih (i + 1) (L' - 1) (by omega) (by omega) hfuel, Option.map_some']
    · -- emit at the current position
      have hmles : min_n ≤ L := by omega
      have hL1 : 1 ≤ L := by omega
      have hemit := emitStep_eval s min_n max_n i L hL1 (by omega)
      have hstep : NGrams.next ⟨min_n, max_n, s, (charOffsets s).drop i, L⟩ =
          .item (offAt s i, offAt s (i + L))
            ⟨min_n, max_n, s, (charOffsets s).drop i, L - 1⟩ := by
        simp only [NGrams.next, hcase, if_false]
        exact hemit
      have hitems : itemsFrom s min_n max_n i L =
          (offAt s i, offAt s (i + L)) :: itemsFrom s min_n max_n i (L - 1) := by
        rw [itemsFrom, lensAt_cons s min_n i L h1 hmles, itemsFrom]
        rfl
      have hfuel : (itemsFrom s min_n max_n i (L - 1)).length < fuel := by
        rw [hitems] at hf
        simpa using Nat.lt_of_succ_lt_succ hf
      rw [hitems]
      simp only [NGrams.run, hstep, ih i (L - 1) hi (by omega) hfuel, Option.map_some']

theorem itemsFrom_zero (s : List Char) (min_n max_n : Nat) (h1 : 1 ≤ min_n) :
    itemsFrom s min_n max_n 0 (min max_n s.length) = specRanges s min_n max_n := by
  rw [specRanges]
  cases hlen : s.length with
  | zero =>
    rw [itemsFrom, lensAt_empty s min_n 0 _ (by simp [Nat.min_zero]; omega),
      rangesFrom_empty s min_n max_n _ _ (by omega)]
    rfl
  | succ r =>
    rw [rangesFrom, itemsFrom, posRanges_eq_lensAt]
    simp [hlen]

theorem run_new (s : List Char) (min_n max_n fuel : Nat)
    (h1 : 1 ≤ min_n) (h2 : min_n ≤ max_n)
    (hf : (specRanges s min_n max_n).length < fuel) :
    NGrams.run fuel (NGrams.new s min_n max_n) = some (specRanges s min_n max_n) := by
  have hnew : NGrams.new s min_n max_n =
      ⟨min_n, max_n, s, (charOffsets s).drop 0, min max_n s.length⟩ := by
    simp [NGrams.new, charOffsets_length]
  rw [hnew, ← itemsFrom_zero s min_n max_n h1]
  exact run_spec s min_n max_n h1 h2 fuel 0 (min max_n s.length) (Nat.zero_le _)
    (by simp) (by rw [itemsFrom_zero s min_n max_n h1]; exact hf)

theorem run_take :
    ∀ fuel' fuel st R, fuel' ≤ fuel → NGrams.run fuel st = some R →
      NGrams.run fuel' st = some (R.take fuel') := by
  intro fuel'
  induction fuel' with
  | zero => intro fuel st R _ _; rfl
  | succ fuel' ih =>
    intro fuel st R hle hrun
    obtain ⟨f, rfl⟩ : ∃ f, fuel = f + 1 := ⟨fuel - 1, by omega⟩
    cases hnext : NGrams.next st with
    | done =>
      simp only [NGrams.run, hnext] at hrun ⊢
      obtain rfl := (Option.some_inj.mp hrun).symm
      simp
    | fault =>
      simp only [NGrams.run, hnext] at hrun
      exact Option.noConfusion hrun
    | item r st' =>
      simp only [NGrams.run, hnext, Option.map_eq_some'] at hrun
      obtain ⟨R0, hR0, rfl⟩ := hrun
      simp only [NGrams.run, hnext, ih f st' R0 (by omega) hR0,
        Option.map_some', List.take_succ_cons]

theorem flatMap_range_shift (f : Nat → List (Nat × Nat)) (r i : Nat) :
    ((List.range (r + 1)).flatMap fun t => f (i + t)) =
      f i ++ ((List.range r).flatMap fun t => f (i + 1 + t)) := by
  rw [List.range_succ_eq_map, List.flatMap_cons, Nat.add_zero, List.flatMap_map]
  refine congrArg (f i ++ ·) ?_
  have : (fun t => f (i + Nat.succ t)) = fun t => f (i + 1 + t) := by
    funext t
    have : i + Nat.succ t = i + 1 + t := by omega
    rw [this]
  simp [Function.comp, this]

theorem rangesFrom_eq_flatMap (s : List Char) (min_n max_n : Nat) :
    ∀ r i, rangesFrom s min_n max_n i r =
      (List.range r).flatMap fun t => posRanges s min_n max_n (i + t) := by
  intro r
  induction r with
  | zero => intro i; rfl
  | succ r ih =>
    intro i
    rw [rangesFrom, flatMap_range_shift (posRanges s min_n max_n) r i, ih (i + 1)]

theorem specRanges_eq_flatMap (s : List Char) (min_n max_n : Nat) :
    specRanges s min_n max_n =
      (List.range s.length).flatMap (posRanges s min_n max_n) := by
  rw [specRanges, rangesFrom_eq_flatMap]
  simp

theorem posRanges_map_decode (s : List Char) (min_n max_n i : Nat) :
    (posRanges s min_n max_n i).map (fun p => decodeRange s p.1 p.2) =
      (List.range (min max_n (s.length - i) + 1 - min_n)).map fun k =>
        some ((s.drop i).take (min max_n (s.length - i) - k)) := by
  rw [posRanges, List.map_map]
  exact List.map_congr_left fun k _ => decodeRange_offAt s i _

theorem specRanges_map_decode (s : List Char) (min_n max_n : Nat) :
    (specRanges s min_n max_n).map (fun p => decodeRange s p.1 p.2) =
      (specNGrams s min_n max_n).map some := by
  rw [specRanges_eq_flatMap, List.map_flatMap, specNGrams, List.map_flatMap]
  refine congrArg _ ?_
  funext i
  rw [posRanges_map_decode, List.map_map]
  rfl

theorem specRanges_length (s : List Char) (min_n max_n : Nat) :
    (specRanges s min_n max_n).length = specCount s min_n max_n := by
  rw [specRanges_eq_flatMap, List.length_flatMap, specCount]
  refine congrArg _ ?_
  simp [Function.comp, posRanges]

theorem specRanges_decode_isSome (s : List Char) (min_n max_n : Nat) (p : Nat × Nat)
    (hp : p ∈ specRanges s min_n max_n) : (decodeRange s p.1 p.2).isSome = true := by
  rw [specRanges_eq_flatMap] at hp
  simp only [List.mem_flatMap, posRanges, List.mem_map, List.mem_range] at hp
  obtain ⟨i, _, k, _, rfl⟩ := hp
  rw [decodeRange_offAt]
  rfl

/-! Claims C1, C2 and C7 about the n-gram generator. -/

/-- Claim C1: for every string and all bounds with 1 ≤ min_n ≤ max_n, the
NGrams iterator emits exactly, for each starting character position in
ascending order, the substrings of length L from min(max_n, len - i) down to
min_n in descending order, and the total number of items is
the sum over i of max 0 (min(max_n, len - i) - min_n + 1).  The run is stated
with any sufficient fuel; each emitted byte range is re-decoded to its
character substring. -/
theorem claim_c1 (s : List Char) (min_n max_n fuel : Nat)
    (h1 : 1 ≤ min_n) (h2 : min_n ≤ max_n) (hf : specCount s min_n max_n < fuel) :
    (NGrams.run fuel (NGrams.new s min_n max_n)).map
        (fun R => R.map fun p => decodeRange s p.1 p.2) =
      some ((specNGrams s min_n max_n).map some) ∧
    (NGrams.run fuel (NGrams.new s min_n max_n)).map List.length =
      some (specCount s min_n max_n) := by
  have hrun := run_new s min_n max_n fuel h1 h2 (by rw [specRanges_length]; exact hf)
  constructor
  · rw [hrun, Option.map_some', specRanges_map_decode]
  · rw [hrun, Option.map_some', specRanges_length]

/-- Witness for claim C1 at s = "abc", min_n = 1, max_n = 2, fuel = 6. -/
theorem claim_c1_witness :
    (1 ≤ 1 ∧ 1 ≤ 2 ∧ specCount ['a','b','c'] 1 2 < 6) ∧
    ((NGrams.run 6 (NGrams.new ['a','b','c'] 1 2)).map
        (fun R => R.map fun p => decodeRange ['a','b','c'] p.1 p.2) =
      some ((specNGrams ['a','b','c'] 1 2).map some) ∧
    (NGrams.run 6 (NGrams.new ['a','b','c'] 1 2)).map List.length =
      some (specCount ['a','b','c'] 1 2)) :=
  ⟨⟨by decide, by decide, by decide⟩,
    claim_c1 ['a','b','c'] 1 2 6 (by decide) (by decide) (by decide)⟩

/-- Claim C2 counterexample: on "hello" with min_n = 2, max_n = 3 the sixth
item emitted is "ll" (the length-2 substring at start position 2), not "lo"
as the claim lists; the claimed sequence is therefore not the emitted one. -/
theorem claim_c2_counterexample :
    (NGrams.run 8 (NGrams.new ['h','e','l','l','o'] 2 3)).map
        (fun R => R.map fun p => decodeRange ['h','e','l','l','o'] p.1 p.2) ≠
      some [some ['h','e','l'], some ['h','e'], some ['e','l','l'], some ['e','l'],
        some ['l','l','o'], some ['l','o'], some ['l','o']] := by
  decide

/-- Claim C2 (amended): on "hello" with min_n = 2, max_n = 3 the iterator
emits, in order, "hel","he" (start 0); "ell","el" (start 1); "llo","ll"
(start 2); "lo" (start 3); exactly 7 items in total. -/
theorem claim_c2_amended :
    (NGrams.run 8 (NGrams.new ['h','e','l','l','o'] 2 3)).map
        (fun R => R.map fun p => decodeRange ['h','e','l','l','o'] p.1 p.2) =
      some [some ['h','e','l'], some ['h','e'], some ['e','l','l'], some ['e','l'],
        some ['l','l','o'], some ['l','l'], some ['l','o']] ∧
    (NGrams.run 8 (NGrams.new ['h','e','l','l','o'] 2 3)).map List.length =
      some 7 := by
  constructor
  · decide
  · decide

/-- Claim C7 counterexample: the claim's stated precondition is only
min_n ≥ 1, but with min_n = 1, max_n = 0 and input "ab" the first call to
next already faults: after advancing past the first suffix it emits the empty
range and then decrements ngram_len, which is 0, underflowing the usize
counter (a panic under checked arithmetic; with wrapping arithmetic the next
call indexes the deque out of bounds instead). -/
theorem claim_c7_counterexample :
    NGrams.run 1 (NGrams.new ['a', 'b'] 1 0) = none ∧ 1 ≤ 1 :=
  ⟨by decide, by decide⟩

/-- Claim C7 (amended): under the precondition 1 ≤ min_n ≤ max_n — the
program's own startup assertion — every call to next is panic-free (the run
never faults: no out-of-bounds deque access and no underflow of ngram_len),
and both boundaries of every emitted byte range lie on character starts of
the input (re-decoding each emitted range succeeds). -/
theorem claim_c7_amended (s : List Char) (min_n max_n fuel : Nat)
    (h1 : 1 ≤ min_n) (h2 : min_n ≤ max_n) :
    (NGrams.run fuel (NGrams.new s min_n max_n)).isSome = true ∧
    ((NGrams.run fuel (NGrams.new s min_n max_n)).getD []).all
        (fun p => (decodeRange s p.1 p.2).isSome) = true := by
  by_cases hle : fuel ≤ (specRanges s min_n max_n).length + 1
  · have hrunF := run_new s min_n max_n ((specRanges s min_n max_n).length + 1) h1 h2
      (by omega)
    have hrun := run_take fuel ((specRanges s min_n max_n).length + 1)
      (NGrams.new s min_n max_n) (specRanges s min_n max_n) hle hrunF
    rw [hrun]
    refine ⟨rfl, ?_⟩
    rw [Option.getD_some, List.all_eq_true]
    intro p hp
    exact specRanges_decode_isSome s min_n max_n p (List.mem_of_mem_take hp)
  · have hrun := run_new s min_n max_n fuel h1 h2 (by omega)
    rw [hrun]
    refine ⟨rfl, ?_⟩
    rw [Option.getD_some, List.all_eq_true]
    intro p hp
    exact specRanges_decode_isSome s min_n max_n p hp

/-- Witness for the amended claim C7 at s = "ab", min_n = 1, max_n = 2,
fuel = 9. -/
theorem claim_c7_amended_witness :
    (1 ≤ 1 ∧ 1 ≤ 2) ∧
    ((NGrams.run 9 (NGrams.new ['a', 'b'] 1 2)).isSome = true ∧
    ((NGrams.run 9 (NGrams.new ['a', 'b'] 1 2)).getD []).all
        (fun p => (decodeRange ['a', 'b'] p.1 p.2).isSome) = true) :=
  ⟨⟨by decide, by decide⟩, claim_c7_amended ['a', 'b'] 1 2 9 (by decide) (by decide)⟩

/-! Facts about the comparator of counted_into_sorted. -/

theorem charCmp_eq_lt {a b : Char} : charCmp a b = .lt ↔ a.toNat < b.toNat :=
  Nat.compare_eq_lt

theorem charCmp_eq_gt {a b : Char} : charCmp a b = .gt ↔ b.toNat < a.toNat :=
  Nat.compare_eq_gt

theorem charCmp_eq_eq {a b : Char} : charCmp a b = .eq ↔ a = b := by
  rw [charCmp, Nat.compare_eq_eq]
  constructor
  · intro h
    exact Char.ext (UInt32.toNat.inj h)
  · intro h
    rw [h]

theorem charListCmp_eq_eq : ∀ a b : List Char, charListCmp a b = .eq ↔ a = b := by
  intro a
  induction a with
  | nil =>
    intro b
    cases b with
    | nil => simp [charListCmp]
    | cons y ys => simp [charListCmp]
  | cons x xs ih =>
    intro b
    cases b with
    | nil => simp [charListCmp]
    | cons y ys =>
      simp only [charListCmp]
      cases hxy : charCmp x y with
      | lt =>
        have : ¬ x = y := fun h => by
          rw [h, charCmp_eq_eq.mpr rfl] at hxy
          exact Ordering.noConfusion hxy
        simp [this]
      | gt =>
        have : ¬ x = y := fun h => by
          rw [h, charCmp_eq_eq.mpr rfl] at hxy
          exact Ordering.noConfusion hxy
        simp [this]
      | eq =>
        have hx : x = y := charCmp_eq_eq.mp hxy
        simp [hx, ih ys]

theorem charListCmp_swap : ∀ a b : List Char, charListCmp b a = (charListCmp a b).swap := by
  intro a
  induction a with
  | nil =>
    intro b
    cases b with
    | nil => rfl
    | cons y ys => rfl
  | cons x xs ih =>
    intro b
    cases b with
    | nil => rfl
    | cons y ys =>
      simp only [charListCmp]
      cases hxy : charCmp x y with
      | lt =>
        have : charCmp y x = .gt := charCmp_eq_gt.mpr (charCmp_eq_lt.mp hxy)
        simp [this, Ordering.swap]
      | gt =>
        have : charCmp y x = .lt := charCmp_eq_lt.mpr (charCmp_eq_gt.mp hxy)
        simp [this, Ordering.swap]
      | eq =>
        have hx : x = y := charCmp_eq_eq.mp hxy
        have : charCmp y x = .eq := charCmp_eq_eq.mpr hx.symm
        simp [this, ih ys]

theorem charListCmp_lt_trans :
    ∀ a b c : List Char, charListCmp a b = .lt → charListCmp b c = .lt →
      charListCmp a c = .lt := by
  intro a
  induction a with
  | nil =>
    intro b c hab hbc
    cases c with
    | nil =>
      cases b with
      | nil => simp [charListCmp] at hab
      | cons y ys => simp [charListCmp] at hbc
    | cons z zs => rfl
  | cons x xs ih =>
    intro b c hab hbc
    cases b with
    | nil => simp [charListCmp] at hab
    | cons y ys =>
      cases c with
      | nil => simp [charListCmp] at hbc
      | cons z zs =>
        simp only [charListCmp] at hab hbc ⊢
        cases hxy : charCmp x y with
        | gt => simp [hxy] at hab
        | lt =>
          simp only [hxy] at hab
          cases hyz : charCmp y z with
          | gt => simp [hyz] at hbc
          | lt =>
            have : charCmp x z = .lt :=
              charCmp_eq_lt.mpr (Nat.lt_trans (charCmp_eq_lt.mp hxy) (charCmp_eq_lt.mp hyz))
            simp [this]
          | eq =>
            have hy : y = z := charCmp_eq_eq.mp hyz
            have : charCmp x z = .lt := by
              rw [← hy]
              exact hxy
            simp [this]
        | eq =>
          simp only [hxy] at hab
          have hx : x = y := charCmp_eq_eq.mp hxy
          cases hyz : charCmp y z with
          | gt => simp [hyz] at hbc
          | lt =>
            have : charCmp x z = .lt := by
              rw [hx]
              exact hyz
            simp [this]
          | eq =>
            simp only [hyz] at hbc
            have : charCmp x z = .eq := by
              rw [hx]
              exact hyz
            simp [this, ih ys zs hab hbc]

theorem charListCmp_ne_gt_iff {a b : List Char} :
    ¬ charListCmp a b = .gt ↔ (charListCmp a b = .lt ∨ a = b) := by
  cases h : charListCmp a b with
  | lt => simp
  | gt =>
    have hne : ¬ a = b := fun hh => by
      rw [(charListCmp_eq_eq a b).mpr hh] at h
      exact Ordering.noConfusion h
    simp [hne]
  | eq =>
    have heq : a = b := (charListCmp_eq_eq a b).mp h
    simp [heq]

theorem charListCmp_ne_gt_trans {a b c : List Char}
    (h1 : ¬ charListCmp a b = .gt) (h2 : ¬ charListCmp b c = .gt) :
    ¬ charListCmp a c = .gt := by
  rw [charListCmp_ne_gt_iff] at h1 h2 ⊢
  rcases h1 with h1 | rfl
  · rcases h2 with h2 | rfl
    · exact Or.inl (charListCmp_lt_trans a b c h1 h2)
    · exact Or.inl h1
  · exact h2

/-- The ordering the specification describes: primarily by descending count,
secondarily by ascending lexicographic string order. -/
def rankLe (a b : List Char × Nat) : Prop :=
  b.2 < a.2 ∨ (b.2 = a.2 ∧ ¬ charListCmp a.1 b.1 = .gt)

theorem entryLe_iff {a b : List Char × Nat} : entryLe a b = true ↔ rankLe a b := by
  simp only [entryLe, entryCmp, rankLe]
  cases hc : compare b.2 a.2 with
  | lt =>
    have hlt := Nat.compare_eq_lt.mp hc
    constructor
    · intro _
      exact Or.inl hlt
    · intro _
      show (Ordering.lt != Ordering.gt) = true
      decide
  | eq =>
    have he := Nat.compare_eq_eq.mp hc
    have hnlt : ¬ b.2 < a.2 := by omega
    constructor
    · intro h
      refine Or.inr ⟨he, ?_⟩
      intro hgt
      have h' : (charListCmp a.1 b.1 != Ordering.gt) = true := h
      rw [hgt] at h'
      exact absurd h' (by decide)
    · intro h
      rcases h with h | ⟨_, hs⟩
      · exact absurd h hnlt
      · show (charListCmp a.1 b.1 != Ordering.gt) = true
        cases hz : charListCmp a.1 b.1 with
        | lt => decide
        | eq => decide
        | gt => exact absurd hz hs
  | gt =>
    have hgt := Nat.compare_eq_gt.mp hc
    constructor
    · intro h
      have h' : (Ordering.gt != Ordering.gt) = true := h
      exact absurd h' (by decide)
    · intro h
      rcases h with h | ⟨he, _⟩
      · omega
      · omega

theorem entryLe_total (a b : List Char × Nat) : entryLe a b || entryLe b a := by
  rcases Nat.lt_trichotomy a.2 b.2 with h | h | h
  · have : entryLe b a = true := entryLe_iff.mpr (Or.inl h)
    simp [this]
  · cases hs : charListCmp a.1 b.1 with
    | lt =>
      have : entryLe a b = true := entryLe_iff.mpr (Or.inr ⟨h.symm, by simp [hs]⟩)
      simp [this]
    | eq =>
      have : entryLe a b = true := entryLe_iff.mpr (Or.inr ⟨h.symm, by simp [hs]⟩)
      simp [this]
    | gt =>
      have hba : charListCmp b.1 a.1 = .lt := by
        rw [charListCmp_swap, hs]
        rfl
      have : entryLe b a = true := entryLe_iff.mpr (Or.inr ⟨h, by simp [hba]⟩)
      simp [this]
  · have : entryLe a b = true := entryLe_iff.mpr (Or.inl h)
    simp [this]

theorem entryLe_trans (a b c : List Char × Nat) :
    entryLe a b → entryLe b c → entryLe a c := by
  intro hab hbc
  rw [entryLe_iff] at hab hbc ⊢
  rcases hab with h | ⟨he, hs⟩
  · rcases hbc with h' | ⟨he', _⟩
    · exact Or.inl (by omega)
    · exact Or.inl (by omega)
  · rcases hbc with h' | ⟨he', hs'⟩
    · exact Or.inl (by omega)
    · exact Or.inr ⟨by omega, charListCmp_ne_gt_trans hs hs'⟩

theorem entryLe_antisymm (a b : List Char × Nat)
    (hab : entryLe a b = true) (hba : entryLe b a = true) : a = b := by
  rw [entryLe_iff] at hab hba
  rcases hab with h | ⟨he, hs⟩
  · rcases hba with h' | ⟨he', _⟩
    · omega
    · omega
  · rcases hba with h' | ⟨he', hs'⟩
    · omega
    · rw [charListCmp_ne_gt_iff] at hs hs'
      have hstr : a.1 = b.1 := by
        rcases hs with hlt | he1
        · rcases hs' with hlt' | he1'
          · have := charListCmp_lt_trans a.1 b.1 a.1 hlt hlt'
            rw [(charListCmp_eq_eq a.1 a.1).mpr rfl] at this
            exact Ordering.noConfusion this
          · exact he1'.symm
        · exact he1
      exact Prod.ext hstr (by omega)

instance : IsAntisymm (List Char × Nat) entryLeP :=
  ⟨entryLe_antisymm⟩

instance : IsTotal (List Char × Nat) entryLeP :=
  ⟨fun a b => by
    have h := entryLe_total a b
    cases hab : entryLe a b with
    | true => exact Or.inl hab
    | false =>
      rw [hab] at h
      exact Or.inr (by simpa using h)⟩

instance : IsTrans (List Char × Nat) entryLeP :=
  ⟨fun a b c hab hbc => entryLe_trans a b c hab hbc⟩

theorem counted_into_sorted_none (l : List (List Char × Nat)) :
    counted_into_sorted l none = l.insertionSort entryLeP := rfl

theorem counted_into_sorted_some (l : List (List Char × Nat)) (m : Nat) :
    counted_into_sorted l (some m) =
      (l.filter fun (e : List Char × Nat) => m ≤ e.2).insertionSort entryLeP := rfl

theorem sorted_insertionSort_entryLeP (l : List (List Char × Nat)) :
    (l.insertionSort entryLeP).Pairwise entryLeP :=
  List.sorted_insertionSort entryLeP l

/-! Claims C3 and C10 about counted_into_sorted. -/

/-- Claim C3: counted_into_sorted with no filter returns a permutation of the
entries sorted by descending count then ascending lexicographic string order,
and counted_into_sorted with filter m equals the unfiltered sorted result with
every entry of count strictly less than m removed, order preserved. -/
theorem claim_c3 (l : List (List Char × Nat)) (m : Nat) :
    (counted_into_sorted l none).Perm l ∧
    (counted_into_sorted l none).Pairwise rankLe ∧
    counted_into_sorted l (some m) =
      (counted_into_sorted l none).filter (fun e => m ≤ e.2) := by
  refine ⟨?_, ?_, ?_⟩
  · rw [counted_into_sorted_none]
    exact List.perm_insertionSort entryLeP l
  · rw [counted_into_sorted_none]
    exact (sorted_insertionSort_entryLeP l).imp (fun h => entryLe_iff.mp h)
  · rw [counted_into_sorted_none, counted_into_sorted_some]
    have hperm :
        ((l.filter fun (e : List Char × Nat) => m ≤ e.2).insertionSort entryLeP).Perm
          ((l.insertionSort entryLeP).filter fun (e : List Char × Nat) => m ≤ e.2) := by
      refine (List.perm_insertionSort entryLeP _).trans ?_
      exact ((List.perm_insertionSort entryLeP l).filter _).symm
    exact List.eq_of_perm_of_sorted hperm (sorted_insertionSort_entryLeP _)
      ((sorted_insertionSort_entryLeP l).filter _)

/-- Claim C10: the ranked output is independent of the (unspecified) iteration
order of the hash mapping: permuting the entries fed to counted_into_sorted
does not change its output, with or without a filter — the comparator totally
orders the entries, so sorted permutations coincide. -/
theorem claim_c10 (l₁ l₂ : List (List Char × Nat)) (f : Option Nat)
    (h : l₁.Perm l₂) : counted_into_sorted l₁ f = counted_into_sorted l₂ f := by
  cases f with
  | none =>
    rw [counted_into_sorted_none, counted_into_sorted_none]
    exact List.eq_of_perm_of_sorted
      ((List.perm_insertionSort entryLeP l₁).trans
        (h.trans (List.perm_insertionSort entryLeP l₂).symm))
      (sorted_insertionSort_entryLeP l₁) (sorted_insertionSort_entryLeP l₂)
  | some m =>
    rw [counted_into_sorted_some, counted_into_sorted_some]
    exact List.eq_of_perm_of_sorted
      ((List.perm_insertionSort entryLeP _).trans
        ((h.filter _).trans (List.perm_insertionSort entryLeP _).symm))
      (sorted_insertionSort_entryLeP _) (sorted_insertionSort_entryLeP _)

/-- Witness for claim C10: two opposite insertion orders of the same mapping
produce the same sorted list. -/
theorem claim_c10_witness :
    List.Perm [(['a'], 1), (['b'], 2)] [(['b'], 2), (['a'], 1)] ∧
    counted_into_sorted [(['a'], 1), (['b'], 2)] none =
      counted_into_sorted [(['b'], 2), (['a'], 1)] none :=
  ⟨by decide, claim_c10 [(['a'], 1), (['b'], 2)] [(['b'], 2), (['a'], 1)] none (by decide)⟩

/-! Model of the pipeline in main (src/main.rs lines 25-113). -/

/-- Lookup in the association-list model of a count HashMap; 0 when the key is
absent. -/
def lookupD : List (List Char × Nat) → List Char → Nat
  | [], _ => 0
  | e :: m, g => if e.1 = g then e.2 else lookupD m g

/-- HashMap get_mut-then-add or insert (src/main.rs lines 65-69 and 95-99):
add w to the entry of t when present, otherwise append (t, w). -/
def bump : List (List Char × Nat) → List Char → Nat → List (List Char × Nat)
  | [], t, w => [(t, w)]
  | e :: m, t, w => if e.1 = t then (e.1, e.2 + w) :: m else e :: bump m t w

/-- Token counting pass (src/main.rs lines 61-71); the corpus is abstracted to
its whitespace-split token sequence, each occurrence adding 1.  The real
HashMap iterates in an unspecified order; this model lists entries in first
insertion order, which the permutation-invariance of counted_into_sorted
(claim C10) shows is irrelevant to every sorted output. -/
def countTokens (toks : List (List Char)) : List (List Char × Nat) :=
  toks.foldl (fun m t => bump m t 1) []

/-- Boundary-bracket wrapping of a token (src/main.rs lines 85-93). -/
def bracketize (bracket : Bool) (t : List Char) : List Char :=
  if bracket then '<' :: (t ++ ['>']) else t

/-- The n-grams the iterator emits for one token, decoded to character
sequences.  The fuel specCount + 1 suffices for the whole run whenever
1 ≤ min_n ≤ max_n — the configurations that pass the program's startup
assertions — and there the run is also fault-free. -/
def NGrams.items (t : List Char) (min_n max_n : Nat) : List (List Char) :=
  match NGrams.run (specCount t min_n max_n + 1) (NGrams.new t min_n max_n) with
  | some R => R.map fun p => (decodeRange t p.1 p.2).getD []
  | none => []

/-- Program configuration after argument parsing (src/main.rs lines 25-54);
write_ngrams records whether an n-gram output file was requested. -/
structure Config where
  bracket : Bool
  filter_first : Bool
  token_min : Nat
  ngram_min : Nat
  min_n : Nat
  max_n : Nat
  write_ngrams : Bool

/-- The ranked token list (src/main.rs lines 73-77): the token_min filter is
applied only when filter_first is set. -/
def sortedTokenCounts (cfg : Config) (toks : List (List Char)) :
    List (List Char × Nat) :=
  if cfg.filter_first then counted_into_sorted (countTokens toks) (some cfg.token_min)
  else counted_into_sorted (countTokens toks) none

/-- One token's contribution to the n-gram count mapping (src/main.rs lines
81-100): skip the token when filter_first is set and its count is below
token_min, otherwise bump every n-gram emitted for the (possibly bracketed)
token by the token's count. -/
def ngramStep (cfg : Config) (m : List (List Char × Nat)) (tc : List Char × Nat) :
    List (List Char × Nat) :=
  if cfg.filter_first ∧ tc.2 < cfg.token_min then m
  else (NGrams.items (bracketize cfg.bracket tc.1) cfg.min_n cfg.max_n).foldl
    (fun m g => bump m g tc.2) m

/-- The n-gram count mapping accumulated over all ranked tokens. -/
def ngramCountsOf (cfg : Config) (toks : List (List Char)) :
    List (List Char × Nat) :=
  (sortedTokenCounts cfg toks).foldl (ngramStep cfg) []

/-- The (string, count) records written to the token-count sink in combined
mode (src/main.rs line 101).  The loop writes the rebound variable token,
which at that point holds the possibly bracketed text. -/
def combinedTokenLines (cfg : Config) (toks : List (List Char)) :
    List (List Char × Nat) :=
  (sortedTokenCounts cfg toks).filterMap fun tc =>
    if cfg.filter_first ∧ tc.2 < cfg.token_min then none
    else some (bracketize cfg.bracket tc.1, tc.2)

/-- The whole pipeline of main: none models the fatal startup assertions on
min_n and max_n (src/main.rs lines 55-59), which abort before any record is
written; otherwise the pair of (token-sink records, ngram-sink records), each
record a (string, count) pair serialised downstream as string TAB count NL. -/
def mainModel (cfg : Config) (toks : List (List Char)) :
    Option (List (List Char × Nat) × List (List Char × Nat)) :=
  if cfg.min_n = 0 then none
  else if ¬ cfg.min_n ≤ cfg.max_n then none
  else if cfg.write_ngrams then
    some (combinedTokenLines cfg toks,
      counted_into_sorted (ngramCountsOf cfg toks) (some cfg.ngram_min))
  else some (sortedTokenCounts cfg toks, [])

/-- The aggregation formula claim C4 states, modelled from the claim's words:
the sum of the counts of the (surviving) tokens that contain g as a
character-aligned substring of a length within range, each such token
contributing its count exactly once. -/
def onceWeighted (cfg : Config) (toks : List (List Char)) (g : List Char) : Nat :=
  ((sortedTokenCounts cfg toks).map fun tc =>
    if cfg.filter_first ∧ tc.2 < cfg.token_min then 0
    else if (specNGrams tc.1 cfg.min_n cfg.max_n).count g ≠ 0 then tc.2 else 0).sum

/-! Counting lemmas for the accumulation loops. -/

theorem lookupD_bump (t : List Char) (w : Nat) (g : List Char) :
    ∀ m, lookupD (bump m t w) g = lookupD m g + (if t = g then w else 0) := by
  intro m
  induction m with
  | nil =>
    by_cases h : t = g
    · simp [bump, lookupD, h]
    · simp [bump, lookupD, h]
  | cons e m ih =>
    by_cases h1 : e.1 = t
    · by_cases h2 : e.1 = g
      · have hg : t = g := by rw [← h1, h2]
        simp [bump, lookupD, h1, h2, hg]
      · have hg : ¬ t = g := fun hh => h2 (h1.trans hh)
        simp [bump, lookupD, h1, h2, hg]
    · by_cases h2 : e.1 = g
      · have hg : ¬ t = g := fun hh => h1 (h2.trans hh.symm)
        have hg' : ¬ g = t := fun hh => hg hh.symm
        simp [bump, lookupD, h1, h2, hg, hg']
      · simp [bump, lookupD, h1, h2, ih]

theorem lookupD_foldl_bump (w : Nat) (g : List Char) :
    ∀ (l : List (List Char)) (m : List (List Char × Nat)),
      lookupD (l.foldl (fun m x => bump m x w) m) g =
        lookupD m g + w * l.count g := by
  intro l
  induction l with
  | nil => intro m; simp
  | cons x l ih =>
    intro m
    rw [List.foldl_cons, ih (bump m x w), lookupD_bump, List.count_cons]
    by_cases h : x = g
    · subst h
      simp only [if_pos rfl, beq_self_eq_true, if_true]
      rw [Nat.mul_add, Nat.mul_one]
      omega
    · have hbg : ¬ (x == g) = true := fun hh => h (beq_iff_eq.mp hh)
      simp [if_neg h, hbg]

theorem lookupD_foldl_ngramStep (cfg : Config) (g : List Char) :
    ∀ (l : List (List Char × Nat)) (m : List (List Char × Nat)),
      lookupD (l.foldl (ngramStep cfg) m) g =
        lookupD m g +
          (l.map fun tc =>
            if cfg.filter_first ∧ tc.2 < cfg.token_min then 0
            else (NGrams.items (bracketize cfg.bracket tc.1) cfg.min_n
              cfg.max_n).count g * tc.2).sum := by
  intro l
  induction l with
  | nil => intro m; simp
  | cons tc l ih =>
    intro m
    rw [List.foldl_cons, ih (ngramStep cfg m tc), List.map_cons, List.sum_cons]
    by_cases h : cfg.filter_first ∧ tc.2 < cfg.token_min
    · rw [ngramStep, if_pos h, if_pos h]
      omega
    · rw [ngramStep, if_neg h, if_neg h, lookupD_foldl_bump, Nat.mul_comm]
      omega

/-- The accumulated count of any n-gram key is the sum of the per-token
contributions, each the token's count times the number of emissions of that
key from the token's expansion. -/
theorem lookupD_ngramCountsOf (cfg : Config) (toks : List (List Char))
    (g : List Char) :
    lookupD (ngramCountsOf cfg toks) g =
      ((sortedTokenCounts cfg toks).map fun tc =>
        if cfg.filter_first ∧ tc.2 < cfg.token_min then 0
        else (NGrams.items (bracketize cfg.bracket tc.1) cfg.min_n
          cfg.max_n).count g * tc.2).sum := by
  rw [ngramCountsOf, lookupD_foldl_ngramStep]
  simp [lookupD]

/-- Under the validated bounds, the decoded emission list coincides with the
specification-level substring enumeration. -/
theorem items_eq_specNGrams (t : List Char) (min_n max_n : Nat)
    (h1 : 1 ≤ min_n) (h2 : min_n ≤ max_n) :
    NGrams.items t min_n max_n = specNGrams t min_n max_n := by
  have hrun := run_new t min_n max_n (specCount t min_n max_n + 1) h1 h2
    (by rw [specRanges_length]; omega)
  simp only [NGrams.items, hrun]
  have hcomp : (fun (p : Nat × Nat) => (decodeRange t p.1 p.2).getD []) =
      (fun o => Option.getD o []) ∘ (fun p : Nat × Nat => decodeRange t p.1 p.2) := rfl
  rw [hcomp, ← List.map_map, specRanges_map_decode, List.map_map]
  exact List.map_id'' (fun x => rfl) _

theorem count_le_of_mem_counted_some (l : List (List Char × Nat)) (m : Nat)
    (e : List Char × Nat) (he : e ∈ counted_into_sorted l (some m)) : m ≤ e.2 := by
  rw [counted_into_sorted_some] at he
  have he' : e ∈ l.filter fun (x : List Char × Nat) => m ≤ x.2 :=
    (List.perm_insertionSort entryLeP _).mem_iff.mp he
  rw [List.mem_filter] at he'
  exact of_decide_eq_true he'.2

/-! Claims C4, C5, C6, C8 and C9 about the pipeline. -/

/-- Claim C9: if the configured minimum n-gram length is 0, or exceeds the
maximum, the program aborts at startup (the assertions at src/main.rs lines
55-59) and neither sink receives any record. -/
theorem claim_c9 (cfg : Config) (toks : List (List Char))
    (h : cfg.min_n = 0 ∨ cfg.max_n < cfg.min_n) :
    mainModel cfg toks = none := by
  rcases h with h | h
  · rw [mainModel, if_pos h]
  · by_cases h0 : cfg.min_n = 0
    · rw [mainModel, if_pos h0]
    · have h1 : ¬ cfg.min_n ≤ cfg.max_n := by omega
      rw [mainModel, if_neg h0, if_pos h1]

/-- Witness for claim C9 with min_n = 0. -/
theorem claim_c9_witness :
    ((0 : Nat) = 0 ∨ (6 : Nat) < 0) ∧
    mainModel ⟨true, false, 1, 1, 0, 6, true⟩ [['a']] = none :=
  ⟨Or.inl rfl, claim_c9 ⟨true, false, 1, 1, 0, 6, true⟩ [['a']] (Or.inl rfl)⟩

/-- Claim C5 counterexample: token-only mode, token_min = 2, filter_first not
set, corpus with the single token "a" of count 1: the claim says the token is
excluded from the sink regardless of filter_first, but the code applies the
token_min filter only when filter_first is set, so ("a", 1) is emitted even
though 1 < 2. -/
theorem claim_c5_counterexample :
    mainModel ⟨false, false, 2, 1, 3, 6, false⟩ [['a']] =
      some ([(['a'], 1)], []) ∧ (1 : Nat) < 2 :=
  ⟨by decide, by decide⟩

/-- Claim C5 (amended): in token-only mode, tokens whose count is below
token_min are excluded from the token-count sink when filter_first is set;
when filter_first is unset no filter is applied and the full unfiltered
ranked list is emitted. -/
theorem claim_c5_amended (cfg : Config) (toks : List (List Char))
    (out : List (List Char × Nat) × List (List Char × Nat))
    (hng : cfg.write_ngrams = false) (hm : mainModel cfg toks = some out) :
    (cfg.filter_first = true → out.1.all (fun e => cfg.token_min ≤ e.2) = true) ∧
    (cfg.filter_first = false → out.1 = counted_into_sorted (countTokens toks) none) := by
  by_cases h0 : cfg.min_n = 0
  · rw [mainModel, if_pos h0] at hm
    exact Option.noConfusion hm
  · by_cases h1 : ¬ cfg.min_n ≤ cfg.max_n
    · rw [mainModel, if_neg h0, if_pos h1] at hm
      exact Option.noConfusion hm
    · rw [mainModel, if_neg h0, if_neg h1, hng] at hm
      simp only [Bool.false_eq_true, if_false] at hm
      obtain rfl := Option.some_inj.mp hm
      constructor
      · intro hff
        rw [List.all_eq_true]
        intro e he
        simp only [sortedTokenCounts, hff, if_true] at he
        exact decide_eq_true (count_le_of_mem_counted_some _ _ e he)
      · intro hff
        show sortedTokenCounts cfg toks = _
        simp [sortedTokenCounts, hff]

/-- Witness for the amended claim C5: filter_first set, token_min = 2, corpus
"a b b": only ("b", 2) survives and every emitted count is at least 2. -/
theorem claim_c5_amended_witness :
    ([((['b'] : List Char), (2 : Nat))].all (fun e => (2 : Nat) ≤ e.2)) = true :=
  (claim_c5_amended ⟨false, true, 2, 1, 3, 6, false⟩ [['a'], ['b'], ['b']]
    ([(['b'], 2)], []) rfl (by decide)).1 rfl

/-- Claim C6 counterexample: in combined mode with bracketing on corpus "ab",
the token-count sink receives the bracketed text, not the raw token text the
claim (and the specification) state: the record is ("<ab>", 1), not
("ab", 1). -/
theorem claim_c6_counterexample :
    (mainModel ⟨true, false, 1, 1, 1, 2, true⟩ [['a', 'b']]).map Prod.fst =
      some [(['<', 'a', 'b', '>'], 1)] ∧
    ¬ (mainModel ⟨true, false, 1, 1, 1, 2, true⟩ [['a', 'b']]).map Prod.fst =
      some [(['a', 'b'], 1)] :=
  ⟨by decide, by decide⟩

/-- Claim C6 (amended): on corpus "ab" with min_n = 1, max_n = 2, bracketing
enabled, token_min = 1, ngram_min = 1, filter_first unset: the token "ab" has
count 1; the n-grams are generated from the bracketed form and each is
counted with weight 1; the token-count sink receives the bracketed record
("<ab>", 1); the n-gram sink receives the seven n-grams of "<ab>" ranked. -/
theorem claim_c6_amended :
    countTokens [['a', 'b']] = [(['a', 'b'], 1)] ∧
    ngramCountsOf ⟨true, false, 1, 1, 1, 2, true⟩ [['a', 'b']] =
      [(['<', 'a'], 1), (['<'], 1), (['a', 'b'], 1), (['a'], 1),
        (['b', '>'], 1), (['b'], 1), (['>'], 1)] ∧
    mainModel ⟨true, false, 1, 1, 1, 2, true⟩ [['a', 'b']] =
      some ([(['<', 'a', 'b', '>'], 1)],
        [(['<'], 1), (['<', 'a'], 1), (['>'], 1), (['a'], 1),
          (['a', 'b'], 1), (['b'], 1), (['b', '>'], 1)]) :=
  ⟨by decide, by decide, by decide⟩

/-- Claim C4 counterexample: corpus with the single token "aa", no
bracketing, min_n = max_n = 1: the n-gram "a" is recorded with count 2 (once
per occurrence inside the token), while the claim's formula — each containing
token contributes its count exactly once — yields 1. -/
theorem claim_c4_counterexample :
    lookupD (ngramCountsOf ⟨false, false, 1, 1, 1, 1, true⟩ [['a', 'a']]) ['a'] = 2 ∧
    onceWeighted ⟨false, false, 1, 1, 1, 1, true⟩ [['a', 'a']] ['a'] = 1 :=
  ⟨by decide, by decide⟩

/-- Claim C4 (amended): the aggregated count recorded for each n-gram equals
the sum over the (surviving) tokens of the token's count multiplied by the
number of character-aligned occurrences, of a length within range, of the
n-gram in the token's possibly bracketed expanded form — each occurrence
contributes the token's count, not once per containing token. -/
theorem claim_c4_amended (cfg : Config) (toks : List (List Char)) (g : List Char)
    (h1 : 1 ≤ cfg.min_n) (h2 : cfg.min_n ≤ cfg.max_n) :
    lookupD (ngramCountsOf cfg toks) g =
      ((sortedTokenCounts cfg toks).map fun tc =>
        if cfg.filter_first ∧ tc.2 < cfg.token_min then 0
        else (specNGrams (bracketize cfg.bracket tc.1) cfg.min_n
          cfg.max_n).count g * tc.2).sum := by
  rw [lookupD_ngramCountsOf]
  refine congrArg List.sum (List.map_congr_left fun tc _ => ?_)
  by_cases h : cfg.filter_first ∧ tc.2 < cfg.token_min
  · rw [if_pos h, if_pos h]
  · rw [if_neg h, if_neg h, items_eq_specNGrams _ _ _ h1 h2]

/-- Witness for the amended claim C4 on corpus "ab" with bracketing. -/
theorem claim_c4_amended_witness :
    (1 ≤ 1 ∧ 1 ≤ 2) ∧
    lookupD (ngramCountsOf ⟨true, false, 1, 1, 1, 2, true⟩ [['a', 'b']]) ['a'] =
      ((sortedTokenCounts ⟨true, false, 1, 1, 1, 2, true⟩ [['a', 'b']]).map fun tc =>
        if (⟨true, false, 1, 1, 1, 2, true⟩ : Config).filter_first ∧
            tc.2 < (⟨true, false, 1, 1, 1, 2, true⟩ : Config).token_min then 0
        else (specNGrams
          (bracketize (⟨true, false, 1, 1, 1, 2, true⟩ : Config).bracket tc.1)
          (⟨true, false, 1, 1, 1, 2, true⟩ : Config).min_n
          (⟨true, false, 1, 1, 1, 2, true⟩ : Config).max_n).count ['a'] * tc.2).sum :=
  ⟨⟨by decide, by decide⟩,
    claim_c4_amended ⟨true, false, 1, 1, 1, 2, true⟩ [['a', 'b']] ['a']
      (by decide) (by decide)⟩

/-- Claim C8: in combined mode the aggregated count of each n-gram key g
equals the sum over the expanded (surviving) tokens of the number of times g
is emitted by the NGrams iterator over the possibly bracketed token,
multiplied by the token's count — an n-gram occurring j times inside one
token of count c gains j * c from it. -/
theorem claim_c8 (cfg : Config) (toks : List (List Char)) (g : List Char) :
    lookupD (ngramCountsOf cfg toks) g =
      ((sortedTokenCounts cfg toks).map fun tc =>
        if cfg.filter_first ∧ tc.2 < cfg.token_min then 0
        else (NGrams.items (bracketize cfg.bracket tc.1) cfg.min_n
          cfg.max_n).count g * tc.2).sum :=
  lookupD_ngramCountsOf cfg toks g

end CorpusCount
